import Mathlib

/-!
Verification of the fronthaul-network-optimization pipeline.

The repository's visible surface is the React frontend (`TopologyMap`,
`Dashboard`, `TrafficAnalysis`, `CapacityEstimator`, `Reports`) plus the
README describing the Python backend (`backend/data_processor.py`,
`backend/capacity_estimator.py`).  The backend sources are not part of the
visible file set, so the backend operations are modelled from the
specification; the frontend function `topologyToFlow` is embedded directly
from `frontend/src/pages/TopologyMap.jsx`.
-/

namespace Fronthaul

/-! ## Sorting and percentile (backend capacity/aggregation helper) -/

/-- Insert a rational into a sorted list, keeping it sorted. -/
def insertSorted (x : ℚ) : List ℚ → List ℚ
  | [] => [x]
  | y :: t => if x ≤ y then x :: y :: t else y :: insertSorted x t

/-- Insertion sort for rational series. -/
def sortQ (xs : List ℚ) : List ℚ := xs.foldr insertSorted []

/-- Modelled from the spec: the percentile routine of the missing backend
(`data_processor.py` / `capacity_estimator.py`).  The spec (§4.4) calls for
"a standard linear-interpolation percentile definition"; the README pins the
stack to Pandas/NumPy, whose standard `linear` method interpolates at rank
`h = p/100 * (n-1)` over the sorted series. -/
def percentile (xs : List ℚ) (p : ℚ) : ℚ :=
  let s := sortQ xs
  let n := s.length
  if n = 0 then 0
  else
    let h : ℚ := p / 100 * ((n : ℚ) - 1)
    let i : ℕ := (⌊h⌋).toNat
    let lo := s.getD i 0
    let hi := s.getD (i + 1) lo
    lo + (h - (i : ℚ)) * (hi - lo)

/-- The literal fixture series `[1, 2, ..., 100]` of §8. -/
def series100 : List ℚ := (List.range 100).map (fun k => ((k + 1 : ℕ) : ℚ))

/-! ## Capacity Estimator (§4.5), modelled from the spec -/

/-- Maximum of a rational series, `0` for the empty series. -/
def maxList : List ℚ → ℚ
  | [] => 0
  | x :: t => t.foldl max x

/-- Modelled from the spec: the buffer window of the missing
`capacity_estimator.py` — 4 symbols = 4/14 slot ≈ 0.286 slots, rounded to
whole slots with a minimum of 1 (§4.5 and the §9 design note). -/
def bufferWindowSlots : ℕ := max 1 (round ((4 : ℚ) / 14)).toNat

/-- Modelled from the spec: sliding-window smoothing of a per-slot series
with window `w`; a series shorter than the window falls back to the
unsmoothed series (§4.5 edge case). -/
def smooth (w : ℕ) (xs : List ℚ) : List ℚ :=
  if xs.length < w then xs
  else (List.range (xs.length - w + 1)).map
    (fun i => (((xs.drop i).take w).sum) / (w : ℚ))

/-- Per-link capacity estimate record (§3 `CapacityEstimate`). -/
structure CapacityEstimate where
  peak_throughput_gbps : ℚ
  with_buffer_gbps : ℚ
  without_buffer_gbps : ℚ
  packet_loss_budget_percent : ℚ
  deriving Repr, DecidableEq

/-- Modelled from the spec: the Capacity Estimator of the missing
`capacity_estimator.py` (§4.5).  `without_buffer` is the `(100-budget)`-th
percentile of the raw per-slot series; `with_buffer` applies the same rule
after smoothing by the buffer-sized window. -/
def capacityEstimate (series : List ℚ) : CapacityEstimate :=
  { peak_throughput_gbps := maxList series
    with_buffer_gbps := percentile (smooth bufferWindowSlots series) (100 - 1)
    without_buffer_gbps := percentile series (100 - 1)
    packet_loss_budget_percent := 1 }

/-! Helper lemmas for C1: the buffer window rounds to a single slot, and a
one-slot sliding average is the identity. -/

theorem bufferWindowSlots_eq_one : bufferWindowSlots = 1 := by
  have h : round ((4 : ℚ) / 14) = 0 := by
    norm_num [round_eq, Int.floor_eq_iff]
  simp [bufferWindowSlots, h]

theorem getD_map_range (l : List ℚ) :
    (List.range l.length).map (fun i => l.getD i 0) = l := by
  induction l with
  | nil => rfl
  | cons h t ih =>
    simp only [List.length_cons, List.range_succ_eq_map, List.map_cons,
      List.map_map]
    refine congrArg₂ _ rfl ?_
    have : (fun i => (h :: t).getD i 0) ∘ Nat.succ = fun i => t.getD i 0 := by
      funext i; rfl
    rw [this, ih]

theorem smooth_one (xs : List ℚ) : smooth 1 xs = xs := by
  unfold smooth
  rcases xs with _ | ⟨h, t⟩
  · simp
  · have hlen : ¬ (h :: t).length < 1 := by simp
    rw [if_neg hlen]
    have h1 : (h :: t).length - 1 + 1 = (h :: t).length := by
      simp
    rw [h1]
    have : ∀ i, i < (h :: t).length →
        (((h :: t).drop i).take 1).sum / (1 : ℚ) = (h :: t).getD i 0 := by
      intro i hi
      rw [List.drop_eq_getElem_cons hi]
      simp [List.getD_eq_getElem?_getD, List.getElem?_eq_getElem hi]
    calc (List.range (h :: t).length).map
          (fun i => (((h :: t).drop i).take 1).sum / ((1 : ℕ) : ℚ))
        = (List.range (h :: t).length).map (fun i => (h :: t).getD i 0) := by
          apply List.map_congr_left
          intro i hi
          rw [List.mem_range] at hi
          simpa using this i hi
      _ = h :: t := getD_map_range _

/-- C1: For every link series, the Capacity Estimator's with-buffer estimate
never exceeds its without-buffer estimate: the 4-symbol buffer rounds to a
one-slot smoothing window, so the smoothed series is the raw series and the
two `(100-budget)`-th percentiles coincide. -/
theorem capacity_with_buffer_le_without (series : List ℚ) :
    (capacityEstimate series).with_buffer_gbps ≤
      (capacityEstimate series).without_buffer_gbps := by
  unfold capacityEstimate
  simp only
  rw [bufferWindowSlots_eq_one, smooth_one]

/-! Evaluation of the percentile fixture.  `series100` is already sorted, so
the insertion sort leaves it unchanged; the interpolation rank is
`95/100 · 99 = 94.05`, which falls between the sorted values 95 and 96. -/

theorem insertSorted_head_le (x : ℚ) (t : List ℚ)
    (h : ∀ y ∈ t.head?, x ≤ y) : insertSorted x t = x :: t := by
  cases t with
  | nil => rfl
  | cons y t' =>
    have hxy : x ≤ y := h y rfl
    simp [insertSorted, hxy]

theorem sortQ_eq_self (l : List ℚ) (h : l.Chain' (· ≤ ·)) : sortQ l = l := by
  induction l with
  | nil => rfl
  | cons x t ih =>
    rw [List.chain'_cons'] at h
    have ht := ih h.2
    show insertSorted x (sortQ t) = x :: t
    rw [ht]
    exact insertSorted_head_le x t h.1

theorem series100_chain' : series100.Chain' (· ≤ ·) := by
  apply List.Pairwise.chain'
  apply List.Pairwise.map
  · intro a b hab
    exact_mod_cast Nat.succ_le_succ (Nat.le_of_lt hab)
  · exact List.pairwise_lt_range 100

theorem sortQ_series100 : sortQ series100 = series100 :=
  sortQ_eq_self _ series100_chain'

theorem series100_getD (i : ℕ) (d : ℚ) (h : i < 100) :
    series100.getD i d = ((i + 1 : ℕ) : ℚ) := by
  simp [series100, List.getD_eq_getElem?_getD, List.getElem?_map,
    List.getElem?_range h]

theorem percentile_series100_val : percentile series100 95 = 1901 / 20 := by
  have hlen : series100.length = 100 := by simp [series100]
  simp only [percentile, sortQ_series100, hlen]
  rw [if_neg (by norm_num)]
  rw [show (95 : ℚ) / 100 * ((100 : ℕ) - 1) = 1881 / 20 by norm_num]
  have hfloor : (⌊(1881 / 20 : ℚ)⌋).toNat = 94 := by
    rw [show ⌊(1881 / 20 : ℚ)⌋ = 94 by norm_num [Int.floor_eq_iff]]
    rfl
  rw [hfloor]
  rw [series100_getD 94 0 (by norm_num),
    series100_getD (94 + 1) _ (by norm_num)]
  push_cast
  norm_num

/-- C4 counterexample: under the standard (NumPy) linear-interpolation
percentile used by the backend stack, the 95th percentile of `[1..100]` is
not 95. -/
theorem percentile_series100_ne_95 : percentile series100 95 ≠ 95 := by
  rw [percentile_series100_val]; norm_num

/-- C4 amended: the 95th percentile of `[1..100]` under the standard
linear-interpolation definition is 95.05 = 1901/20 (interpolating at rank
0.95·99 = 94.05 between the sorted values 95 and 96). -/
theorem percentile_series100_eq : percentile series100 95 = 1901 / 20 :=
  percentile_series100_val

/-! ## Loss rate (§3 LossEvent), modelled from the spec -/

/-- Modelled from the spec: the per-slot loss-rate derivation of the missing
Time Normalizer (`data_processor.py`): `packets_lost / packets_sent`, zero
when `packets_sent == 0`, never undefined. -/
def lossRate (sent lost : ℕ) : ℚ :=
  if sent = 0 then 0 else (lost : ℚ) / (sent : ℚ)

/-- C6: a zero sent-count yields loss rate exactly `0`, and the loss rate is
always a well-defined nonnegative rational (the shallow-embedding rendering
of "never NaN, never a raised error"). -/
theorem lossRate_zero_of_no_packets (sent lost : ℕ) :
    (sent = 0 → lossRate sent lost = 0) ∧ 0 ≤ lossRate sent lost := by
  constructor
  · intro h
    simp [lossRate, h]
  · unfold lossRate
    split
    · exact le_refl 0
    · positivity

theorem lossRate_zero_of_no_packets_witness :
    lossRate 0 7 = 0 ∧ 0 ≤ lossRate 0 7 :=
  ⟨(lossRate_zero_of_no_packets 0 7).1 rfl, (lossRate_zero_of_no_packets 0 7).2⟩

/-! ## `topologyToFlow`, embedded from `frontend/src/pages/TopologyMap.jsx` -/

/-- An input node of the `/api/topology` payload: `{id, type, label}`. -/
structure FNode where
  id : String
  type : String
  label : String
  deriving Repr, DecidableEq

/-- An input edge of the `/api/topology` payload: `{source, target}`. -/
structure FEdge where
  source : String
  target : String
  deriving Repr, DecidableEq

/-- The `/api/topology` payload; `nodes` is optional to model a missing or
null `nodes` field in the JSON object. -/
structure TopologyIn where
  nodes : Option (List FNode)
  edges : List FEdge
  deriving Repr, DecidableEq

/-- A React Flow node produced by `topologyToFlow`: id, label, position and
the style background colour assigned by the producing branch. -/
structure FlowNode where
  id : String
  label : String
  x : ℚ
  y : ℚ
  background : String
  deriving Repr, DecidableEq

/-- A React Flow edge produced by `topologyToFlow`. -/
structure FlowEdge where
  id : String
  source : String
  target : String
  deriving Repr, DecidableEq

/-- `typeColors.du` in the source. -/
def duColor : String := "#0ea5e9"

/-- `typeColors.link` in the source. -/
def linkColor : String := "#8b5cf6"

/-- `typeColors.ru` in the source. -/
def ruColor : String := "#06b6d4"

/-- `typeColors.cell` in the source. -/
def cellColor : String := "#10b981"

/-- `const width = 800` in the source. -/
def flowWidth : ℚ := 800

/-- Map with an explicit running index, mirroring `forEach((n, i) => ...)`. -/
def mapIdxFrom (f : ℕ → α → β) : ℕ → List α → List β
  | _, [] => []
  | k, x :: t => f k x :: mapIdxFrom f (k + 1) t

/-- `80 + (i * (width - 160)) / Math.max(1, count - 1)` of the link/RU rows. -/
def rowX (count i : ℕ) : ℚ :=
  80 + ((i : ℚ) * (flowWidth - 160)) / ((max 1 (count - 1) : ℕ) : ℚ)

/-- The `cellsByRu[ruId]` list: targets of edges whose source is `ruId` and
whose target starts with `"Cell_"`, in edge order. -/
def cellTargets (edges : List FEdge) (ruId : String) : List String :=
  (edges.filter
    (fun e => e.source == ruId && e.target.startsWith "Cell_")).map (·.target)

/-- The positioned cell node of the source's cell loop:
`x = 40 + ruIdx * (width / 3) + (i % 8) * 32`, `y = 280 + ⌊i / 8⌋ * 32`. -/
def mkCellNode (ruIdx i : ℕ) (n : FNode) : FlowNode :=
  ⟨n.id, n.label,
    40 + (ruIdx : ℚ) * (flowWidth / 3) + ((i % 8 : ℕ) : ℚ) * 32,
    280 + ((i / 8 : ℕ) : ℚ) * 32, cellColor⟩

/-- The source's `list.forEach((cellId, i) => ...)`: looks each target up in
`topology.nodes` by id, skips it when absent, and advances the index `i`
either way. -/
def placeCells (ns : List FNode) (ruIdx : ℕ) : ℕ → List String → List FlowNode
  | _, [] => []
  | i, cid :: rest =>
    match ns.find? (fun n => n.id == cid) with
    | none => placeCells ns ruIdx (i + 1) rest
    | some node => mkCellNode ruIdx i node :: placeCells ns ruIdx (i + 1) rest

/-- The source's `byType.du.forEach` loop: the DU row at `y = 0` with
`x = width / 2 - 40`. -/
def duRow (dus : List FNode) : List FlowNode :=
  dus.map (fun n => ⟨n.id, n.label, flowWidth / 2 - 40, 0, duColor⟩)

/-- The source's `byType.link.forEach` loop: the link row at `y = 80`. -/
def linkRow (links : List FNode) : List FlowNode :=
  mapIdxFrom
    (fun i n => ⟨n.id, n.label, rowX links.length i, 80, linkColor⟩) 0 links

/-- The source's `byType.ru.forEach` loop: the RU row at `y = 160`. -/
def ruRow (rus : List FNode) : List FlowNode :=
  mapIdxFrom
    (fun i n => ⟨n.id, n.label, rowX rus.length i, 160, ruColor⟩) 0 rus

/-- The source's `ruOrder.forEach` loop: cell nodes placed from the
`cellsByRu` lists of the literal RU ids `RU_1`, `RU_2`, `RU_3`. -/
def cellRow (ns : List FNode) (edges : List FEdge) : List FlowNode :=
  ([("RU_1", 0), ("RU_2", 1), ("RU_3", 2)] : List (String × ℕ)).flatMap
    (fun p => placeCells ns p.2 0 (cellTargets edges p.1))

/-- The source's final `edges` map: every input edge becomes a flow edge with
id `source-target`. -/
def flowEdgeOf (e : FEdge) : FlowEdge :=
  ⟨e.source ++ "-" ++ e.target, e.source, e.target⟩

/-- Embedded from `TopologyMap.jsx`: `topologyToFlow(topology)`.  Returns
`{nodes: [], edges: []}` when the topology is null/undefined or has a
missing/empty `nodes` array; otherwise lays out DU, link and RU rows from
`topology.nodes` by type, places cell nodes from the `RU_1`/`RU_2`/`RU_3`
edge lists, and maps every input edge to a flow edge. -/
def topologyToFlow (t : Option TopologyIn) : List FlowNode × List FlowEdge :=
  match t with
  | none => ([], [])
  | some tp =>
    match tp.nodes with
    | none => ([], [])
    | some ns =>
      if ns.isEmpty then ([], [])
      else
        (duRow (ns.filter (fun n => n.type == "du")) ++
          linkRow (ns.filter (fun n => n.type == "link")) ++
          ruRow (ns.filter (fun n => n.type == "ru")) ++
          cellRow ns tp.edges,
          tp.edges.map flowEdgeOf)

/-- C9: a null/undefined topology, a missing `nodes` field, or an empty
`nodes` array makes `topologyToFlow` return exactly `{nodes: [], edges: []}`
rather than fail. -/
theorem topologyToFlow_degenerate (t : Option TopologyIn)
    (h : t = none ∨ ∃ tp, t = some tp ∧ (tp.nodes = none ∨ tp.nodes = some [])) :
    topologyToFlow t = ([], []) := by
  rcases h with h | ⟨tp, rfl, h | h⟩
  · rw [h]; rfl
  · simp [topologyToFlow, h]
  · simp [topologyToFlow, h]

theorem topologyToFlow_degenerate_witness :
    topologyToFlow (some ⟨some [], [⟨"RU_1", "Cell_1"⟩]⟩) = ([], []) :=
  topologyToFlow_degenerate _ (Or.inr ⟨_, rfl, Or.inr rfl⟩)

/-! Membership lemmas for the rows of `topologyToFlow`. -/

theorem mem_mapIdxFrom {α β : Type} {f : ℕ → α → β} {b : β} :
    ∀ {k : ℕ} {l : List α}, b ∈ mapIdxFrom f k l → ∃ i, ∃ x ∈ l, b = f i x := by
  intro k l
  induction l generalizing k with
  | nil => intro h; cases h
  | cons x t ih =>
    intro h
    rcases List.mem_cons.mp h with h | h
    · exact ⟨k, x, List.mem_cons_self x t, h⟩
    · obtain ⟨i, y, hy, hb⟩ := ih h
      exact ⟨i, y, List.mem_cons_of_mem x hy, hb⟩

theorem bg_of_mem_duRow {fn : FlowNode} {l : List FNode}
    (h : fn ∈ duRow l) : fn.background = duColor := by
  obtain ⟨n, _, rfl⟩ := List.mem_map.mp h
  rfl

theorem bg_of_mem_linkRow {fn : FlowNode} {l : List FNode}
    (h : fn ∈ linkRow l) : fn.background = linkColor := by
  obtain ⟨i, n, _, rfl⟩ := mem_mapIdxFrom h
  rfl

theorem bg_of_mem_ruRow {fn : FlowNode} {l : List FNode}
    (h : fn ∈ ruRow l) : fn.background = ruColor := by
  obtain ⟨i, n, _, rfl⟩ := mem_mapIdxFrom h
  rfl

theorem mem_cellTargets {edges : List FEdge} {ruId cid : String} :
    cid ∈ cellTargets edges ruId ↔
      ∃ e ∈ edges, e.source = ruId ∧ e.target = cid ∧
        e.target.startsWith "Cell_" = true := by
  simp only [cellTargets, List.mem_map, List.mem_filter, Bool.and_eq_true,
    beq_iff_eq]
  constructor
  · rintro ⟨e, ⟨he, hs, hsw⟩, rfl⟩
    exact ⟨e, he, hs, rfl, hsw⟩
  · rintro ⟨e, he, hs, rfl, hsw⟩
    exact ⟨e, ⟨he, hs, hsw⟩, rfl⟩

theorem mem_placeCells {ns : List FNode} {ruIdx : ℕ} {fn : FlowNode} :
    ∀ {i : ℕ} {cids : List String}, fn ∈ placeCells ns ruIdx i cids →
      ∃ cid ∈ cids, ∃ node, ns.find? (fun n => n.id == cid) = some node ∧
        ∃ j, fn = mkCellNode ruIdx j node := by
  intro i cids
  induction cids generalizing i with
  | nil => intro h; cases h
  | cons c rest ih =>
    intro h
    cases hf : ns.find? (fun n => n.id == c) with
    | none =>
      simp only [placeCells, hf] at h
      obtain ⟨cid, hcid, node, hnode, j, hj⟩ := ih h
      exact ⟨cid, List.mem_cons_of_mem c hcid, node, hnode, j, hj⟩
    | some node =>
      simp only [placeCells, hf] at h
      rcases List.mem_cons.mp h with rfl | h
      · exact ⟨c, List.mem_cons_self c rest, node, hf, i, rfl⟩
      · obtain ⟨cid, hcid, node', hnode', j, hj⟩ := ih h
        exact ⟨cid, List.mem_cons_of_mem c hcid, node', hnode', j, hj⟩

theorem placeCells_mem {ns : List FNode} {ruIdx : ℕ} {cid : String}
    {node : FNode} (hf : ns.find? (fun n => n.id == cid) = some node) :
    ∀ {cids : List String} (i : ℕ), cid ∈ cids →
      ∃ j, mkCellNode ruIdx j node ∈ placeCells ns ruIdx i cids := by
  intro cids
  induction cids with
  | nil => intro i h; cases h
  | cons c rest ih =>
    intro i h
    rcases List.mem_cons.mp h with rfl | h
    · refine ⟨i, ?_⟩
      simp only [placeCells, hf]
      exact List.mem_cons_self _ _
    · obtain ⟨j, hj⟩ := ih (i + 1) h
      refine ⟨j, ?_⟩
      cases hfc : ns.find? (fun n => n.id == c) with
      | none => simpa only [placeCells, hfc] using hj
      | some nodec =>
        simp only [placeCells, hfc]
        exact List.mem_cons_of_mem _ hj

theorem topologyToFlow_eq_of_nodes {tp : TopologyIn} {ns : List FNode}
    (hns : tp.nodes = some ns) (hne : ns ≠ []) :
    topologyToFlow (some tp) =
      (duRow (ns.filter (fun n => n.type == "du")) ++
        linkRow (ns.filter (fun n => n.type == "link")) ++
        ruRow (ns.filter (fun n => n.type == "ru")) ++
        cellRow ns tp.edges,
        tp.edges.map flowEdgeOf) := by
  have hempty : ns.isEmpty = false := by
    cases ns with
    | nil => exact absurd rfl hne
    | cons x t => rfl
  simp only [topologyToFlow, hns, hempty, Bool.false_eq_true, if_false]

/-- C10 (amended with the nonempty-`nodes` guard): provided the topology
passes the `!topology?.nodes?.length` guard, the output node list contains a
cell-styled node exactly for the cell ids that appear in `topology.nodes` and
are the target of an edge sourced at one of the literal ids `RU_1`, `RU_2`,
`RU_3` with target starting with `Cell_`; a cell attached to any other RU id
is omitted from the output nodes, while every input edge — including its
edge — is still mapped into the output edges. -/
theorem topologyToFlow_cell_membership (tp : TopologyIn) (ns : List FNode)
    (hns : tp.nodes = some ns) (hne : ns ≠ []) :
    (∀ cid : String,
      (∃ fn ∈ (topologyToFlow (some tp)).1,
        fn.background = cellColor ∧ fn.id = cid) ↔
        ((∃ n ∈ ns, n.id = cid) ∧
          ∃ e ∈ tp.edges,
            (e.source = "RU_1" ∨ e.source = "RU_2" ∨ e.source = "RU_3") ∧
            e.target = cid ∧ cid.startsWith "Cell_" = true)) ∧
    (∀ e ∈ tp.edges, flowEdgeOf e ∈ (topologyToFlow (some tp)).2) := by
  rw [topologyToFlow_eq_of_nodes hns hne]
  constructor
  · intro cid
    constructor
    · rintro ⟨fn, hfn, hbg, hid⟩
      rcases List.mem_append.mp hfn with hfn | hfn
      rcases List.mem_append.mp hfn with hfn | hfn
      rcases List.mem_append.mp hfn with hfn | hfn
      · rw [bg_of_mem_duRow hfn] at hbg
        exact absurd hbg (by decide)
      · rw [bg_of_mem_linkRow hfn] at hbg
        exact absurd hbg (by decide)
      · rw [bg_of_mem_ruRow hfn] at hbg
        exact absurd hbg (by decide)
      · obtain ⟨p, hp, hfn⟩ := List.mem_flatMap.mp hfn
        obtain ⟨cid', hcid', node, hfind, j, rfl⟩ := mem_placeCells hfn
        have hbeq : (node.id == cid') = true :=
          @List.find?_some _ (fun n => n.id == cid') node _ hfind
        have hnodeid : node.id = cid' := beq_iff_eq.mp hbeq
        have hidcid : node.id = cid := hid
        have hcc : cid' = cid := by rw [← hnodeid, hidcid]
        subst hcc
        refine ⟨⟨node, List.mem_of_find?_eq_some hfind, hidcid⟩, ?_⟩
        obtain ⟨e, he, hsrc, htgt, hsw⟩ := mem_cellTargets.mp hcid'
        have hru : p.1 = "RU_1" ∨ p.1 = "RU_2" ∨ p.1 = "RU_3" := by
          simp only [List.mem_cons, List.not_mem_nil, or_false] at hp
          rcases hp with rfl | rfl | rfl
          · exact Or.inl rfl
          · exact Or.inr (Or.inl rfl)
          · exact Or.inr (Or.inr rfl)
        refine ⟨e, he, ?_, htgt, by rw [← htgt]; exact hsw⟩
        rw [hsrc]
        exact hru
    · rintro ⟨⟨n, hn, hnid⟩, e, he, hsrc, htgt, hsw⟩
      have hfind : ∃ node, ns.find? (fun m => m.id == cid) = some node := by
        refine Option.isSome_iff_exists.mp (List.find?_isSome.mpr ?_)
        exact ⟨n, hn, beq_iff_eq.mpr hnid⟩
      obtain ⟨node, hfind⟩ := hfind
      have hbeq : (node.id == cid) = true :=
        @List.find?_some _ (fun m => m.id == cid) node _ hfind
      have hnodeid : node.id = cid := beq_iff_eq.mp hbeq
      have htgtmem : cid ∈ cellTargets tp.edges e.source :=
        mem_cellTargets.mpr ⟨e, he, rfl, htgt, by rw [htgt]; exact hsw⟩
      have hcell : ∃ fn ∈ cellRow ns tp.edges,
          fn.background = cellColor ∧ fn.id = cid := by
        rcases hsrc with hsrc | hsrc | hsrc
        · have htm : cid ∈ cellTargets tp.edges "RU_1" := hsrc ▸ htgtmem
          obtain ⟨j, hj⟩ := @placeCells_mem ns 0 cid node hfind
            (cellTargets tp.edges "RU_1") 0 htm
          refine ⟨mkCellNode 0 j node, ?_, rfl, hnodeid⟩
          exact List.mem_flatMap.mpr ⟨("RU_1", 0), by simp, hj⟩
        · have htm : cid ∈ cellTargets tp.edges "RU_2" := hsrc ▸ htgtmem
          obtain ⟨j, hj⟩ := @placeCells_mem ns 1 cid node hfind
            (cellTargets tp.edges "RU_2") 0 htm
          refine ⟨mkCellNode 1 j node, ?_, rfl, hnodeid⟩
          exact List.mem_flatMap.mpr ⟨("RU_2", 1), by simp, hj⟩
        · have htm : cid ∈ cellTargets tp.edges "RU_3" := hsrc ▸ htgtmem
          obtain ⟨j, hj⟩ := @placeCells_mem ns 2 cid node hfind
            (cellTargets tp.edges "RU_3") 0 htm
          refine ⟨mkCellNode 2 j node, ?_, rfl, hnodeid⟩
          exact List.mem_flatMap.mpr ⟨("RU_3", 2), by simp, hj⟩
      obtain ⟨fn, hfn, hprop⟩ := hcell
      exact ⟨fn, List.mem_append_right _ hfn, hprop⟩
  · intro e he
    exact List.mem_map_of_mem _ he

/-- C10 counterexample: on the topology `{nodes: [], edges: [RU_7 → Cell_1]}`
the claim's "its edge is still included in the output edges" fails — the
empty-`nodes` guard returns `{nodes: [], edges: []}`, dropping the edge. -/
theorem topologyToFlow_edge_dropped :
    (⟨"RU_7", "Cell_1"⟩ : FEdge) ∈
        (TopologyIn.mk (some []) [⟨"RU_7", "Cell_1"⟩]).edges ∧
      flowEdgeOf ⟨"RU_7", "Cell_1"⟩ ∉
        (topologyToFlow (some ⟨some [], [⟨"RU_7", "Cell_1"⟩]⟩)).2 := by
  constructor
  · exact List.mem_cons_self _ _
  · intro h
    simp [topologyToFlow] at h

theorem topologyToFlow_cell_membership_witness :
    ((∃ fn ∈ (topologyToFlow (some ⟨some [⟨"Cell_1", "cell", "Cell 1"⟩],
        [⟨"RU_1", "Cell_1"⟩]⟩)).1,
      fn.background = cellColor ∧ fn.id = "Cell_1") ↔
      ((∃ n ∈ [(⟨"Cell_1", "cell", "Cell 1"⟩ : FNode)], n.id = "Cell_1") ∧
        ∃ e ∈ [(⟨"RU_1", "Cell_1"⟩ : FEdge)],
          (e.source = "RU_1" ∨ e.source = "RU_2" ∨ e.source = "RU_3") ∧
          e.target = "Cell_1" ∧ ("Cell_1").startsWith "Cell_" = true)) ∧
    flowEdgeOf ⟨"RU_1", "Cell_1"⟩ ∈
      (topologyToFlow (some ⟨some [⟨"Cell_1", "cell", "Cell 1"⟩],
        [⟨"RU_1", "Cell_1"⟩]⟩)).2 :=
  ⟨(topologyToFlow_cell_membership _ _ rfl (by decide)).1 "Cell_1",
    (topologyToFlow_cell_membership _ _ rfl (by decide)).2
      ⟨"RU_1", "Cell_1"⟩ (List.mem_cons_self _ _)⟩

/-! ## Traffic Aggregator (§4.4), modelled from the spec -/

/-- Modelled from the spec: the per-link raw traffic series of the missing
Traffic Aggregator (`data_processor.py`, §4.4) — the member cells' normalized
per-slot Gbps series summed slot-wise (`zipWith` truncates to the common slot
range, the intersection of available slots). -/
def linkRaw : List (List ℚ) → List ℚ
  | [] => []
  | s :: rest => rest.foldl (fun acc t => List.zipWith (· + ·) acc t) s

/-- Modelled from the spec: fixed-stride downsampling (§4.4) — keep every
`N`-th slot; the frontend notes "Data sampled every 2000 slots (~1 s)". -/
def downsample (N : ℕ) : List ℚ → List ℚ
  | [] => []
  | x :: rest => x :: downsample N (rest.drop (N - 1))
termination_by l => l.length
decreasing_by
  simp only [List.length_cons, List.length_drop]
  omega

/-- The reporting stride: `N = 2000` slots of 500 μs each ≈ 1 s. -/
def reportStride : ℕ := 2000

theorem linkRaw_foldl_getD (slot : ℕ) :
    ∀ (rest : List (List ℚ)) (acc : List ℚ), slot < acc.length →
      (∀ s ∈ rest, slot < s.length) →
      (rest.foldl (fun a t => List.zipWith (· + ·) a t) acc).getD slot 0 =
        acc.getD slot 0 + (rest.map (fun s => s.getD slot 0)).sum := by
  intro rest
  induction rest with
  | nil => intro acc _ _; simp
  | cons t ts ih =>
    intro acc hacc hall
    have ht : slot < t.length := hall t (List.mem_cons_self t ts)
    have hz : slot < (List.zipWith (· + ·) acc t).length := by
      rw [List.length_zipWith]; omega
    rw [List.foldl_cons,
      ih (List.zipWith (· + ·) acc t) hz
        (fun s hs => hall s (List.mem_cons_of_mem t hs))]
    have hzip : (List.zipWith (· + ·) acc t).getD slot 0 =
        acc.getD slot 0 + t.getD slot 0 := by
      rw [List.getD_eq_getElem?_getD, List.getElem?_eq_getElem hz,
        List.getElem_zipWith, List.getD_eq_getElem?_getD,
        List.getElem?_eq_getElem hacc, List.getD_eq_getElem?_getD,
        List.getElem?_eq_getElem ht]
      rfl
    rw [hzip, List.map_cons, List.sum_cons]
    ring

theorem downsample_length (N : ℕ) (hN : 1 ≤ N) :
    ∀ (n : ℕ) (xs : List ℚ), xs.length ≤ n →
      (downsample N xs).length = (xs.length + N - 1) / N := by
  intro n
  induction n with
  | zero =>
    intro xs h
    have hx : xs = [] := List.eq_nil_of_length_eq_zero (Nat.le_zero.mp h)
    subst hx
    simp [downsample, Nat.div_eq_of_lt (by omega : N - 1 < N)]
  | succ n ih =>
    intro xs h
    cases xs with
    | nil => simp [downsample, Nat.div_eq_of_lt (by omega : N - 1 < N)]
    | cons x rest =>
      rw [downsample]
      have hrest : (rest.drop (N - 1)).length ≤ n := by
        rw [List.length_drop]
        simp only [List.length_cons] at h
        omega
      rw [List.length_cons, ih _ hrest, List.length_drop, List.length_cons]
      rcases Nat.lt_or_ge rest.length (N - 1) with hlt | hge
      · have h1 : rest.length - (N - 1) = 0 := by omega
        rw [h1]
        have h2 : (0 + N - 1) / N = 0 := Nat.div_eq_of_lt (by omega)
        rw [h2]
        have h3 : rest.length + 1 + N - 1 = rest.length + N := by omega
        rw [h3, Nat.add_div_right _ (by omega : 0 < N),
          Nat.div_eq_of_lt (by omega : rest.length < N)]
      · have h1 : rest.length - (N - 1) + N - 1 = rest.length + 1 - 1 := by omega
        have h2 : rest.length + 1 + N - 1 = rest.length + 1 - 1 + N := by omega
        rw [h1, h2, Nat.add_div_right _ (by omega : 0 < N)]

/-- C5: each link's raw traffic series equals, at every common slot, the sum
of the member cells' per-slot Gbps, and the `N = 2000` fixed-stride
downsampled series has length `raw_length / N` within plus-or-minus one. -/
theorem linkTraffic_sum_and_downsample_len (cells : List (List ℚ)) (slot : ℕ)
    (hne : cells ≠ []) (h : ∀ s ∈ cells, slot < s.length) (xs : List ℚ) :
    (linkRaw cells).getD slot 0 = (cells.map (fun s => s.getD slot 0)).sum ∧
    (xs.length / reportStride ≤ (downsample reportStride xs).length ∧
      (downsample reportStride xs).length ≤ xs.length / reportStride + 1) := by
  constructor
  · cases cells with
    | nil => exact absurd rfl hne
    | cons s rest =>
      rw [show linkRaw (s :: rest) =
          rest.foldl (fun a t => List.zipWith (· + ·) a t) s from rfl,
        linkRaw_foldl_getD slot rest s (h s (List.mem_cons_self s rest))
          (fun t ht => h t (List.mem_cons_of_mem s ht)),
        List.map_cons, List.sum_cons]
  · rw [show reportStride = 2000 from rfl]
    have hlen := downsample_length 2000 (by norm_num)
      xs.length xs (le_refl _)
    rw [hlen]
    constructor
    · exact Nat.div_le_div_right (by omega)
    · calc (xs.length + 2000 - 1) / 2000
          ≤ (xs.length + 2000) / 2000 :=
            Nat.div_le_div_right (by omega)
        _ = xs.length / 2000 + 1 :=
            Nat.add_div_right _ (by norm_num)

theorem linkTraffic_sum_and_downsample_len_witness :
    (linkRaw [[1, 2, 3], [10, 20, 30]]).getD 1 0 =
        ([[(1 : ℚ), 2, 3], [10, 20, 30]].map (fun s => s.getD 1 0)).sum ∧
      ([(5 : ℚ), 6, 7].length / reportStride ≤
          (downsample reportStride [(5 : ℚ), 6, 7]).length ∧
        (downsample reportStride [(5 : ℚ), 6, 7]).length ≤
          [(5 : ℚ), 6, 7].length / reportStride + 1) :=
  linkTraffic_sum_and_downsample_len [[1, 2, 3], [10, 20, 30]] 1
    (List.cons_ne_nil _ _) (by decide) [5, 6, 7]

/-! ## Ingestion (§4.1, §7), modelled from the spec -/

/-- Turn a row of parsed fields into values, failing on any non-numeric
(`none`) field. -/
def seqOpt : List (Option ℚ) → Option (List ℚ)
  | [] => some []
  | none :: _ => none
  | some x :: t => (seqOpt t).map (x :: ·)

/-- Modelled from the spec: row parsing of the missing ingestion code
(§4.1) — a row is malformed (None) when it has the wrong column count or any
non-numeric field. -/
def parseRow (cols : ℕ) (r : List (Option ℚ)) : Option (List ℚ) :=
  if r.length = cols then seqOpt r else none

/-- Row loop of the ingestion: collect valid rows and count skipped ones. -/
def parseRows (cols : ℕ) : List (List (Option ℚ)) → List (List ℚ) × ℕ
  | [] => ([], 0)
  | r :: rest =>
    let acc := parseRows cols rest
    match parseRow cols r with
    | some v => (v :: acc.1, acc.2)
    | none => (acc.1, acc.2 + 1)

/-- Modelled from the spec: file-level ingestion (§4.1, §7) — malformed rows
are skipped and counted, and a file that yields zero valid rows raises a
data-quality error instead of producing an empty series. -/
def parseFile (cols : ℕ) (rows : List (List (Option ℚ))) :
    Except String (List (List ℚ) × ℕ) :=
  let res := parseRows cols rows
  if res.1.isEmpty then .error "DataQualityError" else .ok res

theorem parseRows_fst (cols : ℕ) (rows : List (List (Option ℚ))) :
    (parseRows cols rows).1 = rows.filterMap (parseRow cols) := by
  induction rows with
  | nil => rfl
  | cons r rest ih =>
    cases h : parseRow cols r with
    | none => simp only [parseRows, h, List.filterMap_cons_none h, ih]
    | some v => simp only [parseRows, h, List.filterMap_cons_some h, ih]

theorem parseRows_snd (cols : ℕ) (rows : List (List (Option ℚ))) :
    (parseRows cols rows).2 =
      (rows.filter (fun r => (parseRow cols r).isNone)).length := by
  induction rows with
  | nil => rfl
  | cons r rest ih =>
    cases h : parseRow cols r with
    | none =>
      have hb : (parseRow cols r).isNone = true := by rw [h]; rfl
      simp [parseRows, h, List.filter_cons, hb, ih]
    | some v =>
      have hb : (parseRow cols r).isNone = false := by rw [h]; rfl
      simp [parseRows, h, List.filter_cons, hb, ih]

theorem parseRows_length (cols : ℕ) (rows : List (List (Option ℚ))) :
    (parseRows cols rows).1.length + (parseRows cols rows).2 = rows.length := by
  induction rows with
  | nil => rfl
  | cons r rest ih =>
    cases h : parseRow cols r with
    | none => simp only [parseRows, h, List.length_cons]; omega
    | some v => simp only [parseRows, h, List.length_cons]; omega

/-- C7: malformed rows are skipped and counted without aborting the parse,
and a file whose rows are all malformed raises a data-quality error rather
than producing an empty series. -/
theorem parseFile_spec (cols : ℕ) (rows : List (List (Option ℚ))) :
    ((∀ r ∈ rows, parseRow cols r = none) →
        parseFile cols rows = .error "DataQualityError") ∧
    ((∃ r ∈ rows, (parseRow cols r).isSome) →
      parseFile cols rows =
          .ok (rows.filterMap (parseRow cols),
            (rows.filter (fun r => (parseRow cols r).isNone)).length) ∧
        (rows.filterMap (parseRow cols)).length +
          (rows.filter (fun r => (parseRow cols r).isNone)).length =
            rows.length) := by
  constructor
  · intro h
    have hnil : (parseRows cols rows).1 = [] := by
      rw [parseRows_fst]
      exact List.filterMap_eq_nil.mpr h
    simp only [parseFile, hnil, List.isEmpty_nil, if_true]
  · rintro ⟨r, hr, hsome⟩
    have hne : (parseRows cols rows).1 ≠ [] := by
      rw [parseRows_fst]
      intro hnil
      rw [List.filterMap_eq_nil] at hnil
      rw [hnil r hr] at hsome
      exact Bool.false_ne_true hsome
    have hempty : (parseRows cols rows).1.isEmpty = false := by
      cases h : (parseRows cols rows).1 with
      | nil => exact absurd h hne
      | cons a t => rfl
    constructor
    · have hpair : parseRows cols rows =
          (rows.filterMap (parseRow cols),
            (rows.filter (fun r => (parseRow cols r).isNone)).length) := by
        rw [← parseRows_fst, ← parseRows_snd]
      have hok : parseFile cols rows = .ok (parseRows cols rows) := by
        simp only [parseFile, hempty, Bool.false_eq_true, if_false]
      rw [hok, hpair]
    · have := parseRows_length cols rows
      rw [parseRows_fst, parseRows_snd] at this
      exact this

theorem parseFile_spec_witness :
    (∃ r ∈ [[(none : Option ℚ)], [some 1, some 2]],
        (parseRow 2 r).isSome) ∧
      parseFile 2 [[(none : Option ℚ)], [some 1, some 2]] =
        .ok ([[(none : Option ℚ)], [some 1, some 2]].filterMap (parseRow 2),
          ([[(none : Option ℚ)], [some 1, some 2]].filter
            (fun r => (parseRow 2 r).isNone)).length) :=
  ⟨⟨[some 1, some 2], by simp, by
      rw [show parseRow 2 [some 1, some 2] = some [1, 2] from rfl]; rfl⟩,
    ((parseFile_spec 2 [[(none : Option ℚ)], [some 1, some 2]]).2
      ⟨[some 1, some 2], by simp, by
        rw [show parseRow 2 [some 1, some 2] = some [1, 2] from rfl]; rfl⟩).1⟩

/-! ## Topology Builder (§4.3), modelled from the spec -/

/-- Structured node identifiers of the topology tree. -/
inductive NId where
  | du : NId
  | link : ℕ → NId
  | ru : ℕ → NId
  | cell : ℕ → NId
  deriving Repr, DecidableEq

/-- Node tiers of the topology tree. -/
inductive NType where
  | du : NType
  | link : NType
  | ru : NType
  | cell : NType
  deriving Repr, DecidableEq

/-- A topology node: id, tier and display label. -/
structure TNode where
  id : NId
  type : NType
  label : String
  deriving Repr, DecidableEq

/-- A directed topology edge (root-to-leaf). -/
structure TEdge where
  source : NId
  target : NId
  deriving Repr, DecidableEq

/-- The `TopologyGraph` of §3: nodes plus directed edges. -/
structure TopologyGraph where
  nodes : List TNode
  edges : List TEdge
  deriving Repr, DecidableEq

/-- Modelled from the spec: the Topology Builder of the missing
`data_processor.py` (§4.3) — a pure function from the cell→link partition to
the 4-tier DU → Link → RU → Cell tree, one RU per link, each cell attached to
the RU of its assigned link.  The node list is independent of the
partition. -/
def topoNodes : List TNode :=
  [⟨.du, .du, "DU"⟩] ++
  (List.range 3).map (fun i => ⟨.link i, .link, s!"Link {i + 1}"⟩) ++
  (List.range 3).map (fun i => ⟨.ru i, .ru, s!"RU {i + 1}"⟩) ++
  (List.range 24).map (fun c => ⟨.cell c, .cell, s!"Cell {c}"⟩)

/-- Modelled from the spec: the edge set and full graph of the Topology
Builder, parameterized by the cell→link partition. -/
def buildTopology (cellToLink : ℕ → ℕ) : TopologyGraph :=
  { nodes := topoNodes
    edges :=
      (List.range 3).map (fun i => ⟨.du, .link i⟩) ++
      (List.range 3).map (fun i => ⟨.link i, .ru i⟩) ++
      (List.range 24).map (fun c => ⟨.ru (cellToLink c), .cell c⟩) }

theorem filter_beq_range (n c : ℕ) :
    (List.range n).filter (fun x => x == c) = if c < n then [c] else [] := by
  induction n with
  | zero => simp
  | succ n ih =>
    rw [List.range_succ, List.filter_append, ih]
    by_cases h1 : c < n
    · have h2 : (n == c) = false := by
        simp only [beq_eq_false_iff_ne]; omega
      simp only [List.filter_cons, h2, Bool.false_eq_true, if_false,
        List.filter_nil, List.append_nil, if_pos h1,
        if_pos (by omega : c < n + 1)]
    · by_cases h2 : c = n
      · subst h2
        simp only [List.filter_cons, beq_self_eq_true, if_true,
          List.filter_nil, if_neg h1, List.nil_append,
          if_pos (by omega : c < c + 1)]
      · have h3 : (n == c) = false := by
          simp only [beq_eq_false_iff_ne]; omega
        simp only [List.filter_cons, h3, Bool.false_eq_true, if_false,
          List.filter_nil, List.append_nil, if_neg h1,
          if_neg (by omega : ¬ c < n + 1)]

theorem sum_indicator_range (k v : ℕ) :
    ((List.range k).map (fun i => if v == i then 1 else 0)).sum =
      if v < k then 1 else 0 := by
  induction k with
  | zero => simp
  | succ k ih =>
    rw [List.range_succ, List.map_append, List.sum_append, ih]
    by_cases h1 : v < k
    · have h2 : (v == k) = false := beq_eq_false_iff_ne.mpr (by omega)
      simp only [List.map_cons, List.map_nil, h2, Bool.false_eq_true,
        if_false, List.sum_cons, List.sum_nil, if_pos h1,
        if_pos (by omega : v < k + 1)]
      omega
    · by_cases h2 : v = k
      · subst h2
        simp only [List.map_cons, List.map_nil, beq_self_eq_true, if_true,
          List.sum_cons, List.sum_nil, if_neg h1,
          if_pos (by omega : v < v + 1)]
        omega
      · have h3 : (v == k) = false := beq_eq_false_iff_ne.mpr (by omega)
        simp only [List.map_cons, List.map_nil, h3, Bool.false_eq_true,
          if_false, List.sum_cons, List.sum_nil, if_neg h1,
          if_neg (by omega : ¬ v < k + 1)]
        omega

theorem sum_fiber_counts (k : ℕ) (l : List ℕ) (f : ℕ → ℕ)
    (hf : ∀ x ∈ l, f x < k) :
    ((List.range k).map
      (fun i => (l.filter (fun x => f x == i)).length)).sum = l.length := by
  induction l with
  | nil => simp
  | cons x t ih =>
    have hx : f x < k := hf x (List.mem_cons_self x t)
    have ht : ∀ y ∈ t, f y < k := fun y hy => hf y (List.mem_cons_of_mem x hy)
    have hsplit : ∀ i : ℕ,
        ((x :: t).filter (fun y => f y == i)).length =
          (if f x == i then 1 else 0) + (t.filter (fun y => f y == i)).length := by
      intro i
      by_cases h : f x = i
      · have hb : (f x == i) = true := beq_iff_eq.mpr h
        simp [List.filter_cons, hb, Nat.add_comm]
      · have hb : (f x == i) = false := beq_eq_false_iff_ne.mpr h
        simp [List.filter_cons, hb]
    calc ((List.range k).map
          (fun i => ((x :: t).filter (fun y => f y == i)).length)).sum
        = ((List.range k).map (fun i =>
            (if f x == i then 1 else 0) +
              (t.filter (fun y => f y == i)).length)).sum := by
          exact congrArg _ (List.map_congr_left (fun i _ => hsplit i))
      _ = ((List.range k).map (fun i => if f x == i then 1 else 0)).sum +
            ((List.range k).map
              (fun i => (t.filter (fun y => f y == i)).length)).sum := by
          rw [← List.sum_map_add]
      _ = 1 + t.length := by
          rw [sum_indicator_range, if_pos hx, ih ht]
      _ = (x :: t).length := by simp [Nat.add_comm]

/-- C3: for every total partition `m` of the 24 cells into the 3 links, the
built topology graph has exactly 1 DU, 3 Link, 3 RU and 24 Cell nodes; every
edge is DU→Link, Link→RU or RU→Cell along the assignment; every cell has
exactly one incoming edge; the per-RU cell counts sum to 24; and rebuilding
from an identical partition yields an identical graph. -/
theorem buildTopology_tree (m : ℕ → ℕ) (hm : ∀ c < 24, m c < 3) :
    ((buildTopology m).nodes.filter (fun n => n.type == NType.du)).length = 1 ∧
    ((buildTopology m).nodes.filter
      (fun n => n.type == NType.link)).length = 3 ∧
    ((buildTopology m).nodes.filter (fun n => n.type == NType.ru)).length = 3 ∧
    ((buildTopology m).nodes.filter
      (fun n => n.type == NType.cell)).length = 24 ∧
    (∀ e ∈ (buildTopology m).edges,
      (e.source = NId.du ∧ ∃ i < 3, e.target = NId.link i) ∨
      (∃ i < 3, e.source = NId.link i ∧ e.target = NId.ru i) ∨
      (∃ c < 24, e.source = NId.ru (m c) ∧ m c < 3 ∧
        e.target = NId.cell c)) ∧
    (∀ c < 24, ((buildTopology m).edges.filter
      (fun e => e.target == NId.cell c)).length = 1) ∧
    ((List.range 3).map (fun i => ((buildTopology m).edges.filter
      (fun e => e.source == NId.ru i)).length)).sum = 24 ∧
    (∀ m₂ : ℕ → ℕ, (∀ c, m₂ c = m c) → buildTopology m₂ = buildTopology m) := by
  refine ⟨?_, ?_, ?_, ?_, ?_, ?_, ?_, ?_⟩
  · show (topoNodes.filter (fun n => n.type == NType.du)).length = 1
    decide
  · show (topoNodes.filter (fun n => n.type == NType.link)).length = 3
    decide
  · show (topoNodes.filter (fun n => n.type == NType.ru)).length = 3
    decide
  · show (topoNodes.filter (fun n => n.type == NType.cell)).length = 24
    decide
  · intro e he
    simp only [buildTopology, List.mem_append, List.mem_map,
      List.mem_range] at he
    rcases he with (⟨i, hi, rfl⟩ | ⟨i, hi, rfl⟩) | ⟨c, hc, rfl⟩
    · exact Or.inl ⟨rfl, i, hi, rfl⟩
    · exact Or.inr (Or.inl ⟨i, hi, rfl, rfl⟩)
    · exact Or.inr (Or.inr ⟨c, hc, rfl, hm c hc, rfl⟩)
  · intro c hc
    have h1 : ((List.range 3).map
        (fun i => (⟨NId.du, NId.link i⟩ : TEdge))).filter
          (fun e => e.target == NId.cell c) = [] := by
      rw [List.filter_map]
      simp [Function.comp]
    have h2 : ((List.range 3).map
        (fun i => (⟨NId.link i, NId.ru i⟩ : TEdge))).filter
          (fun e => e.target == NId.cell c) = [] := by
      rw [List.filter_map]
      simp [Function.comp]
    have h3 : ((List.range 24).map
        (fun c2 => (⟨NId.ru (m c2), NId.cell c2⟩ : TEdge))).filter
          (fun e => e.target == NId.cell c) =
        ((List.range 24).filter (fun c2 => c2 == c)).map
          (fun c2 => (⟨NId.ru (m c2), NId.cell c2⟩ : TEdge)) := by
      rw [List.filter_map]
      congr 1
      apply List.filter_congr
      intro c2 _
      show (NId.cell c2 == NId.cell c) = (c2 == c)
      by_cases h : c2 = c
      · subst h; simp
      · have ha : (NId.cell c2 == NId.cell c) = false :=
          beq_eq_false_iff_ne.mpr (by simp [h])
        have hb : (c2 == c) = false := beq_eq_false_iff_ne.mpr h
        rw [ha, hb]
    simp only [buildTopology, List.filter_append, h1, h2, h3,
      List.nil_append, filter_beq_range, if_pos hc, List.map_cons,
      List.map_nil, List.length_cons, List.length_nil]
  · have hstep : ∀ i : ℕ, ((buildTopology m).edges.filter
        (fun e => e.source == NId.ru i)).length =
        ((List.range 24).filter (fun c => m c == i)).length := by
      intro i
      have h1 : ((List.range 3).map
          (fun j => (⟨NId.du, NId.link j⟩ : TEdge))).filter
            (fun e => e.source == NId.ru i) = [] := by
        rw [List.filter_map]
        simp [Function.comp]
      have h2 : ((List.range 3).map
          (fun j => (⟨NId.link j, NId.ru j⟩ : TEdge))).filter
            (fun e => e.source == NId.ru i) = [] := by
        rw [List.filter_map]
        simp [Function.comp]
      have h3 : ((List.range 24).map
          (fun c => (⟨NId.ru (m c), NId.cell c⟩ : TEdge))).filter
            (fun e => e.source == NId.ru i) =
          ((List.range 24).filter (fun c => m c == i)).map
            (fun c => (⟨NId.ru (m c), NId.cell c⟩ : TEdge)) := by
        rw [List.filter_map]
        congr 1
        apply List.filter_congr
        intro c _
        show (NId.ru (m c) == NId.ru i) = (m c == i)
        by_cases h : m c = i
        · rw [h]; simp
        · have ha : (NId.ru (m c) == NId.ru i) = false :=
            beq_eq_false_iff_ne.mpr (by simp [h])
          have hb : (m c == i) = false := beq_eq_false_iff_ne.mpr h
          rw [ha, hb]
      simp only [buildTopology, List.filter_append, h1, h2, h3,
        List.nil_append, List.length_map]
    calc ((List.range 3).map (fun i => ((buildTopology m).edges.filter
          (fun e => e.source == NId.ru i)).length)).sum
        = ((List.range 3).map (fun i =>
            ((List.range 24).filter (fun c => m c == i)).length)).sum := by
          exact congrArg _ (List.map_congr_left (fun i _ => hstep i))
      _ = (List.range 24).length :=
          sum_fiber_counts 3 (List.range 24) m
            (fun c hcm => hm c (List.mem_range.mp hcm))
      _ = 24 := by simp
  · intro m₂ h
    exact congrArg buildTopology (funext h)

theorem buildTopology_tree_witness :
    (∀ c < 24, c % 3 < 3) ∧
      ((buildTopology (fun c => c % 3)).nodes.filter
        (fun n => n.type == NType.cell)).length = 24 :=
  ⟨fun c _ => Nat.mod_lt c (by norm_num),
    (buildTopology_tree (fun c => c % 3)
      (fun c _ => Nat.mod_lt c (by norm_num))).2.2.2.1⟩

/-! ## Link Inference Engine (§4.2, §9), modelled from the spec -/

/-- Minimum of a rational list, `0` for the empty list. -/
def minQ : List ℚ → ℚ
  | [] => 0
  | x :: t => t.foldl min x

/-- Single-linkage distance between two clusters: the minimum pairwise
distance between their members. -/
def clusterDist (d : ℕ → ℕ → ℚ) (a b : List ℕ) : ℚ :=
  minQ (a.flatMap (fun x => b.map (fun y => d x y)))

/-- All index pairs `(i, j)` with `i < j < n`, in ascending (cell-id) order —
the deterministic tie-break order of §4.2. -/
def allPairs (n : ℕ) : List (ℕ × ℕ) :=
  (List.range n).flatMap (fun i =>
    (List.range n).filterMap (fun j => if i < j then some (i, j) else none))

/-- One step of the argmin scan over cluster pairs; strict improvement keeps
the first minimal pair, making ties deterministic. -/
def bpStep (d : ℕ → ℕ → ℚ) (cs : List (List ℕ))
    (acc : Option (ℕ × ℕ × ℚ)) (p : ℕ × ℕ) : Option (ℕ × ℕ × ℚ) :=
  let dist := clusterDist d (cs.getD p.1 []) (cs.getD p.2 [])
  match acc with
  | none => some (p.1, p.2, dist)
  | some (i, j, best) =>
    if dist < best then some (p.1, p.2, dist) else some (i, j, best)

/-- The closest pair of clusters under the distance matrix. -/
def bestPair (d : ℕ → ℕ → ℚ) (cs : List (List ℕ)) : Option (ℕ × ℕ) :=
  ((allPairs cs.length).foldl (bpStep d cs) none).map (fun t => (t.1, t.2.1))

/-- Remove the element at an index (identity when out of range). -/
def removeIdx : List α → ℕ → List α
  | [], _ => []
  | _ :: t, 0 => t
  | x :: t, n + 1 => x :: removeIdx t n

/-- One agglomerative merge: replace the two closest clusters by their
union. -/
def mergeStep (d : ℕ → ℕ → ℚ) (cs : List (List ℕ)) : List (List ℕ) :=
  match bestPair d cs with
  | none => cs
  | some (i, j) =>
    (cs.getD i [] ++ cs.getD j []) :: removeIdx (removeIdx cs j) i

/-- Iterated agglomerative merging. -/
def agglomerate (d : ℕ → ℕ → ℚ) : ℕ → List (List ℕ) → List (List ℕ)
  | 0, cs => cs
  | n + 1, cs => agglomerate d n (mergeStep d cs)

/-- The 24 singleton clusters the agglomeration starts from. -/
def initClusters : List (List ℕ) := (List.range 24).map (fun c => [c])

/-- Modelled from the spec: the Link Inference Engine of the missing
`data_processor.py` — per the §9 design note, a pure function from the
correlation matrix (plus the count of cells with a defined correlation) to
the cell→link partition.  Distance is `1 - correlation`; single-linkage
agglomerative merging runs 21 times, from the 24 singleton clusters down to
exactly 3, with ties broken by cell-id order; when fewer than 2 cells have a
defined correlation the deterministic `cell_id % 3` fallback applies
(§4.2). -/
def inferLinks (definedCells : ℕ) (corr : ℕ → ℕ → ℚ) : ℕ → ℕ :=
  if definedCells < 2 then fun c => c % 3
  else fun c =>
    (agglomerate (fun i j => 1 - corr i j) 21 initClusters).findIdx
      (fun cl => cl.contains c)

theorem mem_allPairs {n : ℕ} {p : ℕ × ℕ} (h : p ∈ allPairs n) :
    p.1 < p.2 ∧ p.2 < n := by
  simp only [allPairs, List.mem_flatMap, List.mem_filterMap,
    List.mem_range] at h
  obtain ⟨i, hi, j, hj, hij⟩ := h
  by_cases hlt : i < j
  · rw [if_pos hlt] at hij
    obtain rfl := Option.some_inj.mp hij
    exact ⟨hlt, hj⟩
  · rw [if_neg hlt] at hij
    cases hij

theorem zero_one_mem_allPairs {n : ℕ} (h : 2 ≤ n) :
    ((0, 1) : ℕ × ℕ) ∈ allPairs n := by
  simp only [allPairs, List.mem_flatMap, List.mem_filterMap, List.mem_range]
  exact ⟨0, by omega, 1, by omega, by norm_num⟩

theorem bpStep_isSome (d : ℕ → ℕ → ℚ) (cs : List (List ℕ))
    (acc : Option (ℕ × ℕ × ℚ)) (p : ℕ × ℕ) : (bpStep d cs acc p).isSome := by
  rcases acc with _ | ⟨i, j, best⟩
  · rfl
  · simp only [bpStep]
    split <;> rfl

theorem foldl_bpStep_isSome (d : ℕ → ℕ → ℚ) (cs : List (List ℕ)) :
    ∀ (l : List (ℕ × ℕ)) (acc : Option (ℕ × ℕ × ℚ)), acc.isSome →
      (l.foldl (bpStep d cs) acc).isSome := by
  intro l
  induction l with
  | nil => intro acc h; exact h
  | cons p t ih =>
    intro acc h
    rw [List.foldl_cons]
    exact ih _ (bpStep_isSome d cs acc p)

theorem foldl_bpStep_valid (d : ℕ → ℕ → ℚ) (cs : List (List ℕ)) :
    ∀ (l : List (ℕ × ℕ)) (acc : Option (ℕ × ℕ × ℚ)),
      (∀ q ∈ l, q.1 < q.2 ∧ q.2 < cs.length) →
      (∀ t, acc = some t → t.1 < t.2.1 ∧ t.2.1 < cs.length) →
      ∀ t, l.foldl (bpStep d cs) acc = some t →
        t.1 < t.2.1 ∧ t.2.1 < cs.length := by
  intro l
  induction l with
  | nil => intro acc _ hacc t ht; exact hacc t ht
  | cons p rest ih =>
    intro acc hl hacc t ht
    rw [List.foldl_cons] at ht
    refine ih _ (fun q hq => hl q (List.mem_cons_of_mem p hq)) ?_ t ht
    intro t2 ht2
    have hp := hl p (List.mem_cons_self p rest)
    rcases acc with _ | ⟨i, j, best⟩
    · have hstep : bpStep d cs none p = some (p.1, p.2,
          clusterDist d (cs.getD p.1 []) (cs.getD p.2 [])) := rfl
      rw [hstep] at ht2
      obtain heq := Option.some_inj.mp ht2
      subst heq
      exact ⟨hp.1, hp.2⟩
    · simp only [bpStep] at ht2
      split at ht2
      · obtain heq := Option.some_inj.mp ht2
        subst heq
        exact ⟨hp.1, hp.2⟩
      · obtain heq := Option.some_inj.mp ht2
        subst heq
        exact hacc (i, j, best) rfl

theorem bestPair_valid {d : ℕ → ℕ → ℚ} {cs : List (List ℕ)} {i j : ℕ}
    (h : bestPair d cs = some (i, j)) : i < j ∧ j < cs.length := by
  unfold bestPair at h
  cases hf : (allPairs cs.length).foldl (bpStep d cs) none with
  | none => rw [hf] at h; cases h
  | some t =>
    rw [hf] at h
    have heq : (t.1, t.2.1) = (i, j) := Option.some_inj.mp h
    have h1 : t.1 = i := congrArg Prod.fst heq
    have h2 : t.2.1 = j := congrArg (fun q => q.2) heq
    have hv := foldl_bpStep_valid d cs (allPairs cs.length) none
      (fun q hq => mem_allPairs hq) (fun t2 ht2 => by cases ht2) t hf
    rw [← h1, ← h2]
    exact hv

theorem bestPair_isSome_of {d : ℕ → ℕ → ℚ} {cs : List (List ℕ)}
    (h : 2 ≤ cs.length) : ∃ i j, bestPair d cs = some (i, j) := by
  have hmem := zero_one_mem_allPairs h
  cases hl : allPairs cs.length with
  | nil => rw [hl] at hmem; cases hmem
  | cons p rest =>
    have h2 : ((p :: rest).foldl (bpStep d cs) none).isSome := by
      rw [List.foldl_cons]
      exact foldl_bpStep_isSome d cs rest _ (bpStep_isSome d cs none p)
    rw [← hl] at h2
    obtain ⟨t, ht⟩ := Option.isSome_iff_exists.mp h2
    refine ⟨t.1, t.2.1, ?_⟩
    unfold bestPair
    rw [ht]
    rfl

theorem length_removeIdx : ∀ (l : List α) (i : ℕ), i < l.length →
    (removeIdx l i).length + 1 = l.length := by
  intro l
  induction l with
  | nil => intro i h; exact absurd h (by simp)
  | cons x t ih =>
    intro i h
    cases i with
    | zero => rfl
    | succ n =>
      have hn : n < t.length := by
        simp only [List.length_cons] at h
        omega
      have := ih n hn
      simp only [removeIdx, List.length_cons]
      omega

theorem mem_of_mem_removeIdx :
    ∀ {l : List α} {i : ℕ} {x : α}, x ∈ removeIdx l i → x ∈ l := by
  intro l
  induction l with
  | nil => intro i x h; cases h
  | cons y t ih =>
    intro i x h
    cases i with
    | zero => exact List.mem_cons_of_mem y h
    | succ n =>
      rcases List.mem_cons.mp h with rfl | h
      · exact List.mem_cons_self _ _
      · exact List.mem_cons_of_mem y (ih h)

theorem getD_removeIdx_lt : ∀ (l : List α) (i k : ℕ) (d : α), k < i →
    (removeIdx l i).getD k d = l.getD k d := by
  intro l
  induction l with
  | nil => intro i k d _; rfl
  | cons x t ih =>
    intro i k d h
    cases i with
    | zero => exact absurd h (Nat.not_lt_zero k)
    | succ n =>
      cases k with
      | zero => rfl
      | succ m =>
        simp only [removeIdx, List.getD_cons_succ]
        exact ih n m d (by omega)

theorem getD_removeIdx_ge : ∀ (l : List α) (i k : ℕ) (d : α), i ≤ k →
    (removeIdx l i).getD k d = l.getD (k + 1) d := by
  intro l
  induction l with
  | nil => intro i k d _; rfl
  | cons x t ih =>
    intro i k d h
    cases i with
    | zero => simp only [removeIdx, List.getD_cons_succ]
    | succ n =>
      cases k with
      | zero => exact absurd h (by omega)
      | succ m =>
        simp only [removeIdx, List.getD_cons_succ]
        exact ih n m d (by omega)

theorem getD_eq_getElem_of_lt (l : List α) (k : ℕ) (d : α)
    (h : k < l.length) : l.getD k d = l[k] := by
  rw [List.getD_eq_getElem?_getD, List.getElem?_eq_getElem h]
  rfl

theorem getD_mem_of_lt (l : List α) (k : ℕ) (d : α) (h : k < l.length) :
    l.getD k d ∈ l := by
  rw [getD_eq_getElem_of_lt l k d h]
  exact List.getElem_mem h

theorem length_mergeStep (d : ℕ → ℕ → ℚ) {cs : List (List ℕ)}
    (h : 2 ≤ cs.length) : (mergeStep d cs).length + 1 = cs.length := by
  obtain ⟨i, j, hbp⟩ := bestPair_isSome_of (d := d) h
  obtain ⟨hij, hj⟩ := bestPair_valid hbp
  simp only [mergeStep, hbp]
  have l1 := length_removeIdx cs j hj
  have hi1 : i < (removeIdx cs j).length := by omega
  have l2 := length_removeIdx (removeIdx cs j) i hi1
  simp only [List.length_cons]
  omega

/-- A cell belongs to some cluster of the list. -/
def memClusters (cs : List (List ℕ)) (c : ℕ) : Prop := ∃ cl ∈ cs, c ∈ cl

theorem memClusters_mergeStep (d : ℕ → ℕ → ℚ) {cs : List (List ℕ)} {c : ℕ} :
    memClusters (mergeStep d cs) c ↔ memClusters cs c := by
  cases hbp : bestPair d cs with
  | none => simp only [mergeStep, hbp]
  | some p =>
    obtain ⟨i, j⟩ := p
    obtain ⟨hij, hj⟩ := bestPair_valid hbp
    have hi : i < cs.length := Nat.lt_trans hij hj
    simp only [mergeStep, hbp]
    constructor
    · rintro ⟨cl, hcl, hc⟩
      rcases List.mem_cons.mp hcl with rfl | hcl
      · rcases List.mem_append.mp hc with hc | hc
        · exact ⟨cs.getD i [], getD_mem_of_lt cs i [] hi, hc⟩
        · exact ⟨cs.getD j [], getD_mem_of_lt cs j [] hj, hc⟩
      · exact ⟨cl, mem_of_mem_removeIdx (mem_of_mem_removeIdx hcl), hc⟩
    · rintro ⟨cl, hcl, hc⟩
      obtain ⟨k, hk, hkeq⟩ := List.getElem_of_mem hcl
      have hkd : cs.getD k [] = cl := by
        rw [getD_eq_getElem_of_lt cs k [] hk]
        exact hkeq
      have hlen1 := length_removeIdx cs j hj
      have hi1 : i < (removeIdx cs j).length := by omega
      have hlen2 := length_removeIdx (removeIdx cs j) i hi1
      by_cases hki : k = i
      · subst hki
        refine ⟨cs.getD k [] ++ cs.getD j [], List.mem_cons_self _ _, ?_⟩
        exact List.mem_append_left _ (by rw [hkd]; exact hc)
      · by_cases hkj : k = j
        · subst hkj
          refine ⟨cs.getD i [] ++ cs.getD k [], List.mem_cons_self _ _, ?_⟩
          exact List.mem_append_right _ (by rw [hkd]; exact hc)
        · rcases Nat.lt_or_ge k j with hkj2 | hkj2
          · have e1 : (removeIdx cs j).getD k [] = cl := by
              rw [getD_removeIdx_lt cs j k [] hkj2, hkd]
            rcases Nat.lt_or_ge k i with hki2 | hki2
            · have e2 : (removeIdx (removeIdx cs j) i).getD k [] = cl := by
                rw [getD_removeIdx_lt _ i k [] hki2, e1]
              have hkb : k < (removeIdx (removeIdx cs j) i).length := by omega
              exact ⟨cl, List.mem_cons_of_mem _
                (e2 ▸ getD_mem_of_lt _ k [] hkb), hc⟩
            · have e2 : (removeIdx (removeIdx cs j) i).getD (k - 1) [] = cl := by
                rw [getD_removeIdx_ge _ i (k - 1) [] (by omega),
                  show k - 1 + 1 = k by omega, e1]
              have hkb : k - 1 < (removeIdx (removeIdx cs j) i).length := by
                omega
              exact ⟨cl, List.mem_cons_of_mem _
                (e2 ▸ getD_mem_of_lt _ (k - 1) [] hkb), hc⟩
          · have e1 : (removeIdx cs j).getD (k - 1) [] = cl := by
              rw [getD_removeIdx_ge cs j (k - 1) [] (by omega),
                show k - 1 + 1 = k by omega, hkd]
            have e2 : (removeIdx (removeIdx cs j) i).getD (k - 2) [] = cl := by
              rw [getD_removeIdx_ge _ i (k - 2) [] (by omega),
                show k - 2 + 1 = k - 1 by omega, e1]
            have hkb : k - 2 < (removeIdx (removeIdx cs j) i).length := by
              omega
            exact ⟨cl, List.mem_cons_of_mem _
              (e2 ▸ getD_mem_of_lt _ (k - 2) [] hkb), hc⟩

theorem length_agglomerate (d : ℕ → ℕ → ℚ) :
    ∀ (n : ℕ) (cs : List (List ℕ)), n + 2 ≤ cs.length →
      (agglomerate d n cs).length = cs.length - n := by
  intro n
  induction n with
  | zero => intro cs _; simp [agglomerate]
  | succ n ih =>
    intro cs h
    have h2 : 2 ≤ cs.length := by omega
    have hm := length_mergeStep d h2
    show (agglomerate d n (mergeStep d cs)).length = cs.length - (n + 1)
    rw [ih (mergeStep d cs) (by omega)]
    omega

theorem memClusters_agglomerate (d : ℕ → ℕ → ℚ) {c : ℕ} :
    ∀ (n : ℕ) (cs : List (List ℕ)),
      memClusters (agglomerate d n cs) c ↔ memClusters cs c := by
  intro n
  induction n with
  | zero => intro cs; exact Iff.rfl
  | succ n ih =>
    intro cs
    exact (ih (mergeStep d cs)).trans (memClusters_mergeStep d)

theorem length_initClusters : initClusters.length = 24 := by
  simp [initClusters]

theorem memClusters_initClusters {c : ℕ} (h : c < 24) :
    memClusters initClusters c :=
  ⟨[c], List.mem_map.mpr ⟨c, List.mem_range.mpr h, rfl⟩,
    List.mem_cons_self c []⟩

/-- C2: for every correlation-matrix input, the inferred cell→link mapping
sends each of the 24 cells (ids 0–23) to exactly one link id in {0, 1, 2} —
agglomerating the 24 singleton clusters 21 times leaves exactly 3 clusters
that still jointly contain every cell — and re-running the inference on an
identical input yields an identical partition. -/
theorem inferLinks_partition (definedCells : ℕ) (corr : ℕ → ℕ → ℚ)
    (c : ℕ) (hc : c < 24) :
    inferLinks definedCells corr c < 3 ∧
      (∀ corr₂ : ℕ → ℕ → ℚ, (∀ i j, corr₂ i j = corr i j) →
        inferLinks definedCells corr₂ c = inferLinks definedCells corr c) := by
  constructor
  · unfold inferLinks
    split
    · exact Nat.mod_lt c (by norm_num)
    · have hlen : (agglomerate (fun i j => 1 - corr i j) 21
          initClusters).length = 3 := by
        rw [length_agglomerate (fun i j => 1 - corr i j) 21 initClusters
          (by rw [length_initClusters]; norm_num), length_initClusters]
      have hmem : memClusters (agglomerate (fun i j => 1 - corr i j) 21
          initClusters) c :=
        (memClusters_agglomerate (fun i j => 1 - corr i j) 21
          initClusters).mpr (memClusters_initClusters hc)
      obtain ⟨cl, hcl, hccl⟩ := hmem
      have hfind : (agglomerate (fun i j => 1 - corr i j) 21
          initClusters).findIdx (fun cl => cl.contains c) <
          (agglomerate (fun i j => 1 - corr i j) 21 initClusters).length := by
        apply List.findIdx_lt_length_of_exists
        refine ⟨cl, hcl, ?_⟩
        show cl.elem c = true
        exact List.elem_iff.mpr hccl
      rw [hlen] at hfind
      exact hfind
  · intro corr₂ hco
    have hceq : corr₂ = corr := funext fun i => funext fun j => hco i j
    rw [hceq]

theorem inferLinks_partition_witness :
    5 < 24 ∧ inferLinks 0 (fun i j => 0) 5 < 3 :=
  ⟨by norm_num,
    (inferLinks_partition 0 (fun i j => 0) 5 (by norm_num)).1⟩

/-! ## Pipeline run and snapshot swap (§5, §6, §7), modelled from the spec -/

/-- Mean of a rational series, `0` for the empty series. -/
def meanQ (xs : List ℚ) : ℚ := if xs.length = 0 then 0 else xs.sum / xs.length

/-- Covariance of two slot-aligned series. -/
def covQ (xs ys : List ℚ) : ℚ :=
  meanQ (List.zipWith (fun a b => (a - meanQ xs) * (b - meanQ ys)) xs ys)

/-- Variance of a series; zero variance means the cell has no defined
correlation (§4.2). -/
def varQ (xs : List ℚ) : ℚ := covQ xs xs

/-- Modelled from the spec: rational stand-in for the Pearson correlation
behind the §4.2 distance matrix.  Pearson's `r` needs a real square root,
unavailable over ℚ; `corrQ` returns `sign(r) · r² = cov·|cov|/(var·var)`, a
strictly increasing function of `r`, so the distance ordering `1 - corrQ`
agrees with the ordering of `1 - r` and the single-linkage merge sequence is
unchanged. -/
def corrQ (xs ys : List ℚ) : ℚ :=
  if varQ xs * varQ ys = 0 then 0
  else covQ xs ys * |covQ xs ys| / (varQ xs * varQ ys)

/-- The output snapshot bundle of §6: topology, per-link raw series,
downsampled traffic report, and per-link capacity estimates. -/
structure Snapshot where
  topology : TopologyGraph
  linkSeries : List (List ℚ)
  trafficReport : List (List ℚ)
  estimates : List CapacityEstimate
  deriving Repr

/-- Modelled from the spec: `run_processing()` of the missing backend
(§6) — parse every cell file (skipping malformed rows), fail the run when no
cell contributes any valid data, otherwise infer the partition, build the
topology, aggregate per-link traffic and estimate capacities. -/
def runProcessing (input : List (List (List (Option ℚ)))) :
    Except String Snapshot :=
  let parsed := input.map (parseFile 2)
  let goods := parsed.filterMap (fun r =>
    match r with
    | .ok (vs, _) => some vs
    | .error _ => none)
  if goods.isEmpty then .error "DataQualityError"
  else
    let series := goods.map (fun vs => vs.map (fun row => row.getD 1 0))
    let defined := (series.filter (fun s => varQ s != 0)).length
    let partition := inferLinks defined
      (fun i j => corrQ (series.getD i []) (series.getD j []))
    let linkSeries := (List.range 3).map (fun l =>
      linkRaw (((List.range 24).filter (fun c => partition c == l)).map
        (fun c => series.getD c [])))
    .ok
      { topology := buildTopology partition
        linkSeries := linkSeries
        trafficReport := linkSeries.map (downsample reportStride)
        estimates := linkSeries.map capacityEstimate }

/-- Modelled from the spec: the atomically swapped global snapshot (§5,
§9) — a run failure keeps the previously published snapshot, a successful
run replaces it wholesale. -/
def publish (prev : Option Snapshot)
    (input : List (List (List (Option ℚ)))) : Option Snapshot :=
  match runProcessing input with
  | .ok s => some s
  | .error _ => prev

/-- C8: a failed pipeline run leaves the previously published snapshot
unchanged, and a reader of the published state observes either the previous
snapshot or the whole snapshot of a successfully completed run — never a
partially built one. -/
theorem publish_preserves_on_failure (prev : Option Snapshot)
    (input : List (List (List (Option ℚ)))) :
    (∀ e, runProcessing input = .error e → publish prev input = prev) ∧
    (publish prev input = prev ∨
      ∃ s, runProcessing input = .ok s ∧ publish prev input = some s) := by
  constructor
  · intro e he
    unfold publish
    rw [he]
  · unfold publish
    cases h : runProcessing input with
    | error e => exact Or.inl rfl
    | ok s => exact Or.inr ⟨s, rfl, rfl⟩

theorem publish_preserves_on_failure_witness :
    runProcessing [[[none]]] = .error "DataQualityError" ∧
      publish (some ⟨⟨[], []⟩, [], [], []⟩) [[[none]]] =
        some ⟨⟨[], []⟩, [], [], []⟩ :=
  ⟨rfl, (publish_preserves_on_failure (some ⟨⟨[], []⟩, [], [], []⟩)
    [[[none]]]).1 "DataQualityError" rfl⟩

end Fronthaul
